import Mathlib

/-!
Verification of `src/mock_ingestion_pipeline.py` (RAG product-search mock
ingestion pipeline): a shallow embedding of the chunker, the mock embedding
model, the mock vector store and the ingestion orchestrator, together with
proofs and refutations of the specification's claims.

Modelling conventions:
* Python strings are Lean `String`s (a structure over `List Char`).
* Python `str.split()` (split on whitespace runs, drop empties) is `pySplit`,
  written as a structural accumulator pass over the character list.
* Python `" ".join(ws)` is `pyJoinSpace`.
* Python `range(0, stop, step)` is `pyRange`: `ValueError` when `step = 0`,
  empty when `step < 0`, and for `step > 0` exactly the multiples of `step`
  below `stop`.
* Python slicing `l[a:b]` (step 1) is `pySlice`, with Python's clamping and
  negative-index wrap-around.
* Exceptions are an `Except PyErr` result; statements mutating state are
  explicit state passing, and on an error the state reached so far is kept,
  as in Python.
* `uuid.uuid4()` returns fresh globally unique strings; it is modelled as a
  deterministic supply of pairwise distinct strings drawn from a counter that
  lives in the pipeline state.
* Python's builtin `hash` for `str` is implementation/seed dependent; it is
  modelled by a fixed deterministic polynomial hash (`pyHash`).  No claim
  depends on its values.  The vector components `float((seed*i) % 97)` are
  exact small integers, so vectors are modelled as `List Int`.
-/

/-- Python exception kinds raised by the modelled code paths. -/
inductive PyErr where
  | keyError
  | attributeError
  | valueError
  deriving DecidableEq, Repr

/-- Accumulator pass implementing Python `str.split()` on a character list:
whitespace runs separate words, leading/trailing whitespace is dropped, and
no empty words are produced.  `acc` holds the (reversed) word being read. -/
def splitAux (acc : List Char) : List Char → List (List Char)
  | [] =>
    match acc with
    | [] => []
    | _ => [acc.reverse]
  | c :: cs =>
    if c.isWhitespace then
      match acc with
      | [] => splitAux [] cs
      | _ => acc.reverse :: splitAux [] cs
    else
      splitAux (c :: acc) cs

/-- Model of Python `text.split()` (no arguments: split on whitespace). -/
def pySplit (s : String) : List String :=
  (splitAux [] s.data).map String.mk

/-- Character-level model of `" ".join`: interleave a single space between
the given words. -/
def joinWordsCL : List (List Char) → List Char
  | [] => []
  | [w] => w
  | w :: ws => w ++ ' ' :: joinWordsCL ws

/-- Model of Python `" ".join(ws)`. -/
def pyJoinSpace (ws : List String) : String :=
  String.mk (joinWordsCL (ws.map String.data))

/-- Model of Python `range(0, stop, step)`: `ValueError` for a zero step,
empty for a negative step (the start 0 already fails `0 > stop ≥ 0`), and for
a positive step exactly the multiples of `step` that are `< stop`. -/
def pyRange (stop : Nat) (step : Int) : Except PyErr (List Nat) :=
  if step = 0 then .error .valueError
  else if step < 0 then .ok []
  else .ok ((List.range stop).filter (fun i => i % step.toNat == 0))

/-- Model of Python step-1 slicing `l[a:b]`: negative indices count from the
end, and both bounds are clamped into `[0, len]`. -/
def pySlice {α : Type _} (l : List α) (a b : Int) : List α :=
  let n : Int := l.length
  let a' := (if a < 0 then max (n + a) 0 else min a n).toNat
  let b' := (if b < 0 then max (n + b) 0 else min b n).toNat
  (l.take b').drop a'

/-- Embedding of `chunk_text` from `src/mock_ingestion_pipeline.py`:
split into words, then for each start index produced by
`range(0, len(words), max_words - overlap)` join `words[i : i + max_words]`
with single spaces. -/
def chunk_text (text : String) (max_words : Int) (overlap : Int) :
    Except PyErr (List String) :=
  let words := pySplit text
  let step := max_words - overlap
  match pyRange words.length step with
  | .error e => .error e
  | .ok idxs =>
      .ok (idxs.map (fun i : Nat => pyJoinSpace (pySlice words (i : Int) ((i : Int) + max_words))))

/-- Modelled stand-in for Python's builtin `hash` on strings (which is
implementation- and seed-dependent); a fixed polynomial hash.  No claim
depends on the values it takes. -/
def pyHash (s : String) : Int :=
  s.data.foldl (fun a c => a * 31 + (c.toNat : Int)) 0

namespace MockEmbeddingModel

/-- Embedding of `MockEmbeddingModel.embed`: `seed = abs(hash(text)) % 1000`
and the vector `[float((seed * i) % 97) for i in range(128)]`, whose entries
are exact integers. -/
def embed (text : String) : List Int :=
  let seed : Int := ((pyHash text).natAbs % 1000 : Nat)
  (List.range 128).map (fun i : Nat => (seed * (i : Int)) % 97)

end MockEmbeddingModel

/-- C9: for every input string, the mock embedding model returns a vector of
exactly 128 elements; in particular the length is the same constant for all
inputs. -/
theorem embed_length_128 (text : String) :
    (MockEmbeddingModel.embed text).length = 128 := by
  simp only [MockEmbeddingModel.embed]
  rw [List.length_map, List.length_range]

/-- C2 (evaluation of the code at the failing inputs): `chunk_text` performs
no argument validation.  With `overlap > max_words` (step `< 0`) it silently
returns the empty list instead of raising `InvalidArgument`, and with
`overlap = max_words` (step `= 0`) it raises `range`'s `ValueError` rather
than a validation error. -/
theorem chunk_text_invalid_params_behavior :
    chunk_text "a b c" 2 5 = .ok [] ∧
    chunk_text "a b c" 2 2 = .error .valueError := by
  constructor <;> rfl

/-! ### Properties of the word splitter and joiner -/

/-- Reading a run of non-whitespace characters only moves them into the
accumulator. -/
theorem splitAux_word_step :
    ∀ (w : List Char) (acc rest : List Char),
      (∀ c ∈ w, c.isWhitespace = false) →
      splitAux acc (w ++ rest) = splitAux (w.reverse ++ acc) rest := by
  intro w
  induction w with
  | nil => intro acc rest _; simp
  | cons c w' ih =>
      intro acc rest h
      have hc : c.isWhitespace = false := h c (by simp)
      have hrec := ih (c :: acc) rest (fun d hd => h d (by simp [hd]))
      simp only [List.cons_append, splitAux, hc, Bool.false_eq_true, if_false]
      show splitAux (c :: acc) (w' ++ rest) = _
      rw [hrec]
      simp [List.append_assoc]

/-- Splitting a single nonempty whitespace-free word yields just that word. -/
theorem splitAux_single (w : List Char) (hw : w ≠ [])
    (h : ∀ c ∈ w, c.isWhitespace = false) :
    splitAux [] w = [w] := by
  have := splitAux_word_step w [] [] h
  rw [List.append_nil] at this
  rw [this]
  rw [List.append_nil]
  cases hr : w.reverse with
  | nil => exact absurd (by simpa using hr) hw
  | cons a l =>
      show [(a :: l).reverse] = [w]
      rw [← hr, List.reverse_reverse]

/-- Splitting a nonempty whitespace-free word followed by a space peels off
exactly that word. -/
theorem splitAux_word_space (w t : List Char) (hw : w ≠ [])
    (h : ∀ c ∈ w, c.isWhitespace = false) :
    splitAux [] (w ++ ' ' :: t) = w :: splitAux [] t := by
  rw [splitAux_word_step w [] (' ' :: t) h, List.append_nil]
  cases hr : w.reverse with
  | nil => exact absurd (by simpa using hr) hw
  | cons a l =>
      have hrev : (a :: l).reverse = w := by rw [← hr, List.reverse_reverse]
      show splitAux (a :: l) (' ' :: t) = w :: splitAux [] t
      simp only [splitAux, Char.isWhitespace]
      norm_num
      rw [← hrev, List.reverse_cons]

/-- Every word produced by the splitter is nonempty and whitespace-free. -/
theorem splitAux_wordlike :
    ∀ (l acc : List Char), (∀ c ∈ acc, c.isWhitespace = false) →
      ∀ w ∈ splitAux acc l, w ≠ [] ∧ ∀ c ∈ w, c.isWhitespace = false := by
  intro l
  induction l with
  | nil =>
      intro acc hacc w hw
      cases acc with
      | nil => simp [splitAux] at hw
      | cons a as =>
          simp only [splitAux, List.mem_singleton] at hw
          subst hw
          constructor
          · simp
          · intro c hc
            exact hacc c (List.mem_reverse.mp hc)
  | cons c cs ih =>
      intro acc hacc w hw
      by_cases hc : c.isWhitespace
      · cases acc with
        | nil =>
            simp only [splitAux, hc, if_true] at hw
            exact ih [] (by simp) w hw
        | cons a as =>
            simp only [splitAux, hc, if_true, List.mem_cons] at hw
            rcases hw with hw | hw
            · subst hw
              refine ⟨by simp, fun d hd => hacc d (List.mem_reverse.mp hd)⟩
            · exact ih [] (by simp) w hw
      · simp only [splitAux, hc, if_false] at hw
        refine ih (c :: acc) ?_ w hw
        intro d hd
        rcases List.mem_cons.mp hd with rfl | hd
        · simpa using hc
        · exact hacc d hd

/-- Splitting the space-joined concatenation of nonempty whitespace-free
words recovers exactly those words. -/
theorem splitAux_joinWords :
    ∀ (wl : List (List Char)),
      (∀ w ∈ wl, w ≠ [] ∧ ∀ c ∈ w, c.isWhitespace = false) →
      splitAux [] (joinWordsCL wl) = wl := by
  intro wl
  induction wl with
  | nil => intro _; rfl
  | cons w ws ih =>
      intro h
      obtain ⟨hw, hwc⟩ := h w (by simp)
      cases ws with
      | nil =>
          show splitAux [] w = [w]
          exact splitAux_single w hw hwc
      | cons w₂ rest =>
          show splitAux [] (w ++ ' ' :: joinWordsCL (w₂ :: rest)) = _
          rw [splitAux_word_space w _ hw hwc]
          rw [ih (fun u hu => h u (by simp [hu]))]

/-- A list of strings is word-like when each is nonempty and whitespace-free
(as the output of `pySplit` always is). -/
def wordLike (ws : List String) : Prop :=
  ∀ w ∈ ws, w.data ≠ [] ∧ ∀ c ∈ w.data, c.isWhitespace = false

/-- The output of `pySplit` is word-like. -/
theorem pySplit_wordLike (s : String) : wordLike (pySplit s) := by
  intro w hw
  simp only [pySplit, List.mem_map] at hw
  obtain ⟨cl, hcl, rfl⟩ := hw
  exact splitAux_wordlike s.data [] (by simp) cl hcl

/-- Splitting the space-join of word-like strings recovers them: the
round-trip between `pySplit` and `pyJoinSpace`. -/
theorem pySplit_pyJoinSpace (ws : List String) (h : wordLike ws) :
    pySplit (pyJoinSpace ws) = ws := by
  have hmk : ∀ t : String, String.mk t.data = t := fun t => rfl
  have hjoin :
      splitAux [] (joinWordsCL (ws.map String.data)) = ws.map String.data := by
    refine splitAux_joinWords (ws.map String.data) ?_
    intro w hw
    simp only [List.mem_map] at hw
    obtain ⟨t, ht, rfl⟩ := hw
    exact h t ht
  show (splitAux [] (String.mk (joinWordsCL (ws.map String.data))).data).map String.mk = ws
  rw [show (String.mk (joinWordsCL (ws.map String.data))).data
        = joinWordsCL (ws.map String.data) from rfl]
  rw [hjoin, List.map_map]
  calc ws.map (String.mk ∘ String.data)
      = ws.map id := List.map_congr_left (fun t _ => hmk t)
    _ = ws := List.map_id ws

/-- The positive-step case of `range(0, n, s)`, the multiples of `s` below
`n`, listed explicitly: there are exactly `⌈n / s⌉` of them. -/
theorem range_filter_mod (n s : Nat) (hs : 0 < s) :
    (List.range n).filter (fun i => i % s == 0)
      = (List.range ((n + s - 1) / s)).map (fun k => k * s) := by
  induction n with
  | zero =>
      rw [Nat.div_eq_of_lt (by omega)]
      rfl
  | succ n ih =>
      rw [List.range_succ, List.filter_append, ih]
      have hdm : s * (n / s) + n % s = n := Nat.div_add_mod n s
      have hmlt : n % s < s := Nat.mod_lt _ hs
      by_cases hr : n % s = 0
      · have hc1 : (n + 1 + s - 1) / s = n / s + 1 := by
          have : n + 1 + s - 1 = n + s := by omega
          rw [this, Nat.add_div_right _ hs]
        have hc0 : (n + s - 1) / s = n / s := by
          have heq : n + s - 1 = s * (n / s) + (s - 1) := by omega
          rw [heq, Nat.mul_add_div hs, Nat.div_eq_of_lt (show s - 1 < s by omega),
            Nat.add_zero]
        have hfil : List.filter (fun i => i % s == 0) [n] = [n] := by
          simp [List.filter, hr]
        rw [hfil, hc0, hc1, List.range_succ, List.map_append]
        have hmul : n / s * s = n := by rw [Nat.mul_comm]; omega
        simp [hmul]
      · have hc1 : (n + 1 + s - 1) / s = (n + s - 1) / s := by
          have h1 : n + 1 + s - 1 = s * (n / s) + (n % s + s) := by omega
          have h2 : n + s - 1 = s * (n / s) + (n % s + s - 1) := by omega
          rw [h1, h2, Nat.mul_add_div hs, Nat.mul_add_div hs]
          have e1 : (n % s + s) / s = 1 := by
            rw [Nat.add_div_right _ hs, Nat.div_eq_of_lt hmlt]
          have e2 : (n % s + s - 1) / s = 1 := by
            have : n % s + s - 1 = (n % s - 1) + s := by omega
            rw [this, Nat.add_div_right _ hs, Nat.div_eq_of_lt (by omega)]
          rw [e1, e2]
        have hb : (n % s == 0) = false := beq_eq_false_iff_ne.mpr hr
        have hfil : List.filter (fun i => i % s == 0) [n] = [] := by
          simp [List.filter, hb]
        rw [hfil, hc1, List.append_nil]

/-- Python slicing `l[i : i + m]` for a natural start and nonnegative
extent is take-after-drop. -/
theorem pySlice_drop_take {α : Type _} (l : List α) (i : Nat) (m : Int)
    (hm : 0 ≤ m) : pySlice l (i : Int) ((i : Int) + m) = (l.drop i).take m.toNat := by
  have hia : ¬ ((i : Int) < 0) := by omega
  have hib : ¬ ((i : Int) + m < 0) := by omega
  simp only [pySlice, hia, hib, if_false]
  by_cases hle : i ≤ l.length
  · have ha : (min (i : Int) (l.length : Int)).toNat = i := by omega
    have hb : (min ((i : Int) + m) (l.length : Int)).toNat = min (i + m.toNat) l.length := by
      omega
    rw [ha, hb, List.drop_take]
    rw [List.take_eq_take]
    have hdl : (l.drop i).length = l.length - i := List.length_drop i l
    rw [hdl]
    omega
  · have ha : (min (i : Int) (l.length : Int)).toNat = l.length := by omega
    rw [ha]
    have h1 : (l.take (min ((i : Int) + m) (l.length : Int)).toNat).length ≤ l.length := by
      rw [List.length_take]; omega
    rw [List.drop_eq_nil_of_le h1, List.drop_eq_nil_of_le (by omega), List.take_nil]

/-- Closed form of `chunk_text` for valid parameters `0 < m`, `0 ≤ o < m`:
with `W` words and `s = m - o`, it returns `⌈W / s⌉` chunks, the `k`-th being
the words `k*s, …, k*s + m - 1` (clipped at the end) joined by spaces. -/
theorem chunk_text_eq (text : String) (m o : Int) (hm : 0 < m) (ho : 0 ≤ o)
    (hom : o < m) :
    chunk_text text m o
      = .ok ((List.range (((pySplit text).length + (m - o).toNat - 1) / (m - o).toNat)).map
          (fun k => pyJoinSpace (((pySplit text).drop (k * (m - o).toNat)).take m.toNat))) := by
  have h1 : ¬ (m - o = 0) := by omega
  have h2 : ¬ (m - o < 0) := by omega
  have hs : 0 < (m - o).toNat := by omega
  simp only [chunk_text, pyRange, h1, h2, if_false, ite_false]
  rw [range_filter_mod _ _ hs, List.map_map]
  have hfun :
      (fun i : Nat => pyJoinSpace (pySlice (pySplit text) (i : Int) ((i : Int) + m)))
          ∘ (fun k => k * (m - o).toNat)
        = fun k => pyJoinSpace (((pySplit text).drop (k * (m - o).toNat)).take m.toNat) := by
    funext k
    show pyJoinSpace (pySlice (pySplit text) ((k * (m - o).toNat : Nat) : Int)
          (((k * (m - o).toNat : Nat) : Int) + m)) = _
    rw [pySlice_drop_take _ _ _ (le_of_lt hm)]
  rw [hfun]

/-! ### Chunk count (C1), single-chunk case (C4), overlap (C8) -/

/-- Modelled from the spec: the chunk-count formula of testable property 1,
`0` when `W = 0` and `⌈max(W − o, 0) / (m − o)⌉` when `W > 0` (stated here in
natural-number arithmetic), for comparison against the code. -/
def specChunkCount (W m o : Nat) : Nat :=
  if W = 0 then 0 else (max (W - o) 0 + (m - o) - 1) / (m - o)

/-- C1 (counterexample): for `"a b"` (2 words) with `max_words = 2`,
`overlap = 1` the code produces 2 chunks, while the spec's formula
`ceil(max(W - o, 0) / (m - o)) = ceil(1 / 1)` predicts 1. -/
theorem chunk_count_spec_formula_fails :
    chunk_text "a b" 2 1 = .ok ["a b", "b"] ∧
    specChunkCount (pySplit "a b").length 2 1 = 1 ∧
    ¬ (["a b", "b"] : List String).length
        = specChunkCount (pySplit "a b").length 2 1 := by
  refine ⟨rfl, by decide, by decide⟩

/-- C1 (amended): for `max_words = m > 0` and `0 ≤ overlap = o < m` the
chunker succeeds and returns exactly `⌈W / (m − o)⌉` chunks (numerator `W`,
not `max(W − o, 0)`), hence `0` chunks when `W = 0`. -/
theorem chunk_count_eq_ceil (text : String) (m o : Int) (hm : 0 < m)
    (ho : 0 ≤ o) (hom : o < m) :
    ∃ cs, chunk_text text m o = .ok cs ∧
      cs.length = ((pySplit text).length + (m - o).toNat - 1) / (m - o).toNat ∧
      ((pySplit text).length = 0 → cs.length = 0) := by
  refine ⟨_, chunk_text_eq text m o hm ho hom, ?_, ?_⟩
  · rw [List.length_map, List.length_range]
  · intro h0
    rw [List.length_map, List.length_range, h0, Nat.zero_add,
      Nat.div_eq_of_lt (by omega)]

/-- C1 (witness): the amended count theorem at `"a b"`, `m = 2`, `o = 1`. -/
theorem chunk_count_eq_ceil_witness :
    ∃ cs, chunk_text "a b" 2 1 = .ok cs ∧
      cs.length = ((pySplit "a b").length + ((2 : Int) - 1).toNat - 1)
          / ((2 : Int) - 1).toNat ∧
      ((pySplit "a b").length = 0 → cs.length = 0) :=
  chunk_count_eq_ceil "a b" 2 1 (by decide) (by decide) (by decide)

/-- C4 (counterexample): `"a b"` has `2 < 3 = max_words` words, yet with
`overlap = 2` (valid: `0 ≤ 2 < 3`) the chunker returns two chunks, not one. -/
theorem chunk_single_claim_fails :
    (0 : Nat) < (pySplit "a b").length ∧
    (pySplit "a b").length < (3 : Int).toNat ∧
    chunk_text "a b" 3 2 = .ok ["a b", "b"] ∧
    ¬ (["a b", "b"] : List String).length = 1 := by
  refine ⟨by decide, by decide, rfl, by decide⟩

/-- C4 (amended): when `0 < W ≤ max_words − overlap` (rather than
`W < max_words`), the chunker returns exactly one chunk, containing the whole
text: all words in order joined by single spaces. -/
theorem chunk_single_when_at_most_step (text : String) (m o : Int)
    (hm : 0 < m) (ho : 0 ≤ o) (hom : o < m)
    (hpos : 0 < (pySplit text).length)
    (hle : (pySplit text).length ≤ (m - o).toNat) :
    chunk_text text m o = .ok [pyJoinSpace (pySplit text)] := by
  rw [chunk_text_eq text m o hm ho hom]
  have hs : 0 < (m - o).toNat := by omega
  have hcnt : ((pySplit text).length + (m - o).toNat - 1) / (m - o).toNat = 1 := by
    have heq : (pySplit text).length + (m - o).toNat - 1
        = ((pySplit text).length - 1) + (m - o).toNat := by omega
    rw [heq, Nat.add_div_right _ hs, Nat.div_eq_of_lt (by omega)]
  rw [hcnt]
  rw [show List.range 1 = [0] from rfl]
  simp only [List.map_cons, List.map_nil, Nat.zero_mul, List.drop_zero]
  rw [List.take_of_length_le (by omega : (pySplit text).length ≤ m.toNat)]

/-- C4 (witness): the amended single-chunk theorem at `"a b c"`, `m = 5`,
`o = 1` (3 words, step 4). -/
theorem chunk_single_when_at_most_step_witness :
    chunk_text "a b c" 5 1 = .ok [pyJoinSpace (pySplit "a b c")] :=
  chunk_single_when_at_most_step "a b c" 5 1 (by decide) (by decide)
    (by decide) (by decide) (by decide)

/-- C8 (counterexample): with `max_words = 4`, `overlap = 3` on 5 words the
chunk at index 3 (`"d e"`) is not the final chunk, yet the last 3 words of
chunk 2 (`"c d e"`) are not the first 3 words of chunk 3. -/
theorem overlap_claim_fails_nonfinal_short_chunk :
    chunk_text "a b c d e" 4 3
      = .ok ["a b c d", "b c d e", "c d e", "d e", "e"] ∧
    (3 + 1 : Nat) < (["a b c d", "b c d e", "c d e", "d e", "e"] : List String).length ∧
    ¬ ((pySplit "c d e").drop ((pySplit "c d e").length - 3)
        = (pySplit "d e").take 3) := by
  refine ⟨rfl, by decide, by decide⟩

/-- C8 (amended): for valid parameters, whenever chunk `i+1` exists and has
at least `o` words — the exception is any chunk with fewer than `o` words,
which for `m < 2o` need not be the final one — the last `o` words of chunk
`i` equal the first `o` words of chunk `i+1`. -/
theorem overlap_correct_when_next_has_o_words (text : String) (m o : Int)
    (hm : 0 < m) (ho : 0 ≤ o) (hom : o < m) (cs : List String)
    (hcs : chunk_text text m o = .ok cs) (i : Nat) (ci cj : String)
    (hci : cs[i]? = some ci) (hcj : cs[i + 1]? = some cj)
    (hlen : o.toNat ≤ (pySplit cj).length) :
    (pySplit ci).drop ((pySplit ci).length - o.toNat)
      = (pySplit cj).take o.toNat := by
  rw [chunk_text_eq text m o hm ho hom] at hcs
  have hM := hcs
  injection hM with hM
  subst hM
  have hwl : wordLike (pySplit text) := pySplit_wordLike text
  have hslice : ∀ k : Nat,
      wordLike (((pySplit text).drop (k * (m - o).toNat)).take m.toNat) := by
    intro k w hw
    exact hwl w (List.drop_subset _ _ (List.take_subset _ _ hw))
  have hcnt_len :
      (List.map (fun k => pyJoinSpace (((pySplit text).drop (k * (m - o).toNat)).take m.toNat))
        (List.range (((pySplit text).length + (m - o).toNat - 1) / (m - o).toNat))).length
      = ((pySplit text).length + (m - o).toNat - 1) / (m - o).toNat := by
    rw [List.length_map, List.length_range]
  have hi : i < ((pySplit text).length + (m - o).toNat - 1) / (m - o).toNat := by
    by_contra hcon
    rw [List.getElem?_eq_none (by rw [hcnt_len]; omega)] at hci
    exact Option.noConfusion hci
  have hj : i + 1 < ((pySplit text).length + (m - o).toNat - 1) / (m - o).toNat := by
    by_contra hcon
    rw [List.getElem?_eq_none (by rw [hcnt_len]; omega)] at hcj
    exact Option.noConfusion hcj
  rw [List.getElem?_map, List.getElem?_range hi, Option.map_some'] at hci
  rw [List.getElem?_map, List.getElem?_range hj, Option.map_some'] at hcj
  have hci' := Option.some.inj hci
  have hcj' := Option.some.inj hcj
  subst hci'
  subst hcj'
  rw [pySplit_pyJoinSpace _ (hslice (i + 1))] at hlen
  rw [pySplit_pyJoinSpace _ (hslice i), pySplit_pyJoinSpace _ (hslice (i + 1))]
  by_cases ho0 : o.toNat = 0
  · rw [ho0, Nat.sub_zero, List.drop_length, List.take_zero]
  · have hexp : (i + 1) * (m - o).toNat = i * (m - o).toNat + (m - o).toNat := by ring
    have hjlen :
        (((pySplit text).drop ((i + 1) * (m - o).toNat)).take m.toNat).length
          = min m.toNat ((pySplit text).length - (i + 1) * (m - o).toNat) := by
      rw [List.length_take, List.length_drop]
    have hW : (i + 1) * (m - o).toNat + o.toNat ≤ (pySplit text).length := by
      rw [hjlen] at hlen
      omega
    have hilen :
        (((pySplit text).drop (i * (m - o).toNat)).take m.toNat).length = m.toNat := by
      rw [List.length_take, List.length_drop]
      omega
    rw [hilen, List.drop_take, List.drop_drop]
    have hidx : i * (m - o).toNat + (m.toNat - o.toNat) = (i + 1) * (m - o).toNat := by
      omega
    rw [hidx, List.take_take]
    have h3 : m.toNat - (m.toNat - o.toNat) = o.toNat := by omega
    have h4 : min o.toNat m.toNat = o.toNat := by omega
    rw [h3, h4]

/-- C8 (witness): the amended overlap theorem on `"a b c"` with `m = 2`,
`o = 1`, consecutive chunks `"a b"` and `"b c"`. -/
theorem overlap_correct_witness :
    (pySplit "a b").drop ((pySplit "a b").length - (1 : Int).toNat)
      = (pySplit "b c").take (1 : Int).toNat :=
  overlap_correct_when_next_has_o_words "a b c" 2 1 (by decide) (by decide)
    (by decide) ["a b", "b c", "c"] rfl 0 "a b" "b c" rfl rfl (by decide)

/-! ### The ingestion pipeline -/

/-- Model of the input product dictionary.  `description` distinguishes an
absent key (`none`), a key present with value `None` (`some none`) and a
string value (`some (some s)`), because the code fails differently on the
first two.  The remaining optional keys are modelled as absent-or-value;
their `None` cases are not exercised by any claim.  `price` values are
modelled as integers (they are only carried, never computed with). -/
structure Product where
  id : Option String
  title : Option String
  description : Option (Option String)
  category : Option String
  price : Option Int
  deriving DecidableEq, Repr

/-- Metadata mapping attached to each vector store entry, as built by
`ingest_product`. -/
structure Metadata where
  product_id : String
  chunk_id : String
  title : String
  category : String
  price : Option Int
  deriving DecidableEq, Repr

/-- An entry of `MockVectorDB.store`: the vector and its metadata. -/
structure VectorEntry where
  vector : List Int
  metadata : Metadata
  deriving DecidableEq, Repr

/-- A row of `ProductIngestionPipeline.embeddings_table`. -/
structure EmbeddingRecord where
  product_id : String
  chunk_id : String
  text_chunk : String
  embedding_model : String
  vector_id : String
  deriving DecidableEq, Repr

/-- State owned by one `ProductIngestionPipeline` instance (which owns its
`MockVectorDB`), plus the uuid supply and the printed output.  Python dicts
are association lists in insertion order. -/
structure PipelineState where
  uuidCtr : Nat
  store : List (String × VectorEntry)
  products_table : List (String × Product)
  embeddings_table : List EmbeddingRecord
  output : List String
  deriving DecidableEq, Repr

/-- Modelled `uuid.uuid4()`: the `n`-th fresh identifier drawn from the
supply.  Distinct indices give distinct strings (their lengths differ). -/
def mkUuid (n : Nat) : String :=
  "uuid-" ++ String.mk (List.replicate n 'x')

/-- The empty pipeline, as built by `ProductIngestionPipeline.__init__`. -/
def initState : PipelineState :=
  { uuidCtr := 0, store := [], products_table := [], embeddings_table := [],
    output := [] }

/-- Python dict assignment `d[k] = v` on an insertion-ordered association
list: overwrite in place if the key exists, else append. -/
def dictSet {V : Type _} (l : List (String × V)) (k : String) (v : V) :
    List (String × V) :=
  if l.any (fun p => p.1 == k) then
    l.map (fun p => if p.1 == k then (k, v) else p)
  else
    l ++ [(k, v)]

/-- Embedding of `MockVectorDB.upsert`: draw a fresh `vector_id`, store the
entry under it, return the identifier. -/
def MockVectorDB.upsert (st : PipelineState) (vector : List Int)
    (metadata : Metadata) : String × PipelineState :=
  let vector_id := mkUuid st.uuidCtr
  (vector_id,
    { st with
      uuidCtr := st.uuidCtr + 1,
      store := dictSet st.store vector_id ⟨vector, metadata⟩ })

/-- The body of the `for idx, chunk in enumerate(chunks)` loop of
`ingest_product`: embed the chunk, build metadata (raising `KeyError` if
`title` is absent), upsert, and append one embeddings-table row.  On an
error the state reached so far is kept. -/
def ingestLoop (p : Product) (product_id : String) :
    List String → Nat → PipelineState → PipelineState × Except PyErr Unit
  | [], _, st => (st, .ok ())
  | chunk :: rest, idx, st =>
    let vector := MockEmbeddingModel.embed chunk
    match p.title with
    | none => (st, .error .keyError)
    | some title =>
      let metadata : Metadata :=
        { product_id := product_id,
          chunk_id := product_id ++ "_" ++ toString idx,
          title := title,
          category := p.category.getD "unknown",
          price := p.price }
      let r := MockVectorDB.upsert st vector metadata
      let st2 :=
        { r.2 with
          embeddings_table := r.2.embeddings_table ++
            [{ product_id := product_id,
               chunk_id := metadata.chunk_id,
               text_chunk := chunk,
               embedding_model := "mock",
               vector_id := r.1 }] }
      ingestLoop p product_id rest (idx + 1) st2

/-- Embedding of `ProductIngestionPipeline.ingest_product`.  Python's
`product.get("id", str(uuid.uuid4()))` evaluates the default eagerly, so one
uuid is always drawn; the product is recorded in `products_table` before
`product["description"]` is read (`KeyError` when the key is absent,
`AttributeError` from `None.split()` when it is null); the summary line is
printed only after the loop finishes.  The call returns no value (`Unit`). -/
def ingest_product (st : PipelineState) (product : Product) :
    PipelineState × Except PyErr Unit :=
  let product_id :=
    match product.id with
    | some v => v
    | none => mkUuid st.uuidCtr
  let st1 := { st with uuidCtr := st.uuidCtr + 1 }
  let st2 := { st1 with products_table := dictSet st1.products_table product_id product }
  match product.description with
  | none => (st2, .error .keyError)
  | some none => (st2, .error .attributeError)
  | some (some desc) =>
    match chunk_text desc 100 25 with
    | .error e => (st2, .error e)
    | .ok chunks =>
      match ingestLoop product product_id chunks 0 st2 with
      | (st3, .error e) => (st3, .error e)
      | (st3, .ok _) =>
        ({ st3 with
           output := st3.output ++
             ["Ingested product: " ++ product_id ++ " with "
               ++ toString chunks.length ++ " chunks"] }, .ok ())

/-! ### Helper lemmas about the pipeline -/

/-- The product identifier `ingest_product` resolves:
`product.get("id", str(uuid.uuid4()))`, the `id` value whenever the key is
present, else the next fresh identifier. -/
def resolvedId (st : PipelineState) (p : Product) : String :=
  match p.id with
  | some v => v
  | none => mkUuid st.uuidCtr

/-- All keys of the vector store were drawn from the uuid supply before the
current counter value.  This holds for every state the pipeline can reach. -/
def storeFresh (st : PipelineState) : Prop :=
  ∀ e ∈ st.store, ∃ j, j < st.uuidCtr ∧ e.1 = mkUuid j

/-- Distinct supply indices give distinct identifiers. -/
theorem mkUuid_inj {a b : Nat} (h : mkUuid a = mkUuid b) : a = b := by
  have hlen := congrArg String.length h
  simp only [mkUuid, String.length_append, String.length_mk,
    List.length_replicate] at hlen
  omega

/-- Dict assignment with a key that is not present appends. -/
theorem dictSet_eq_append {V : Type _} (l : List (String × V)) (k : String)
    (v : V) (h : ∀ e ∈ l, e.1 ≠ k) : dictSet l k v = l ++ [(k, v)] := by
  have hany : l.any (fun p => p.1 == k) = false := by
    rw [List.any_eq_false]
    intro e he
    simpa using h e he
  simp [dictSet, hany]

/-- The vector store entries created by the ingestion loop over the given
chunks, when the title is present: one per chunk, keyed by consecutive fresh
identifiers starting at `ctr`. -/
def loopEntries (pid title cat : String) (price : Option Int) :
    List String → Nat → Nat → List (String × VectorEntry)
  | [], _, _ => []
  | chunk :: rest, idx, ctr =>
    (mkUuid ctr,
      { vector := MockEmbeddingModel.embed chunk,
        metadata :=
          { product_id := pid, chunk_id := pid ++ "_" ++ toString idx,
            title := title, category := cat, price := price } })
      :: loopEntries pid title cat price rest (idx + 1) (ctr + 1)

/-- The embeddings-table rows appended by the ingestion loop over the given
chunks: one per chunk, in chunk order, referencing the same fresh
identifiers. -/
def loopRecs (pid : String) : List String → Nat → Nat → List EmbeddingRecord
  | [], _, _ => []
  | chunk :: rest, idx, ctr =>
    { product_id := pid, chunk_id := pid ++ "_" ++ toString idx,
      text_chunk := chunk, embedding_model := "mock",
      vector_id := mkUuid ctr }
      :: loopRecs pid rest (idx + 1) (ctr + 1)

theorem loopRecs_length (pid : String) :
    ∀ (chunks : List String) (idx ctr : Nat),
      (loopRecs pid chunks idx ctr).length = chunks.length := by
  intro chunks
  induction chunks with
  | nil => intro idx ctr; rfl
  | cons c rest ih =>
      intro idx ctr
      simp only [loopRecs, List.length_cons, ih]

theorem loopEntries_length (pid title cat : String) (price : Option Int) :
    ∀ (chunks : List String) (idx ctr : Nat),
      (loopEntries pid title cat price chunks idx ctr).length = chunks.length := by
  intro chunks
  induction chunks with
  | nil => intro idx ctr; rfl
  | cons c rest ih =>
      intro idx ctr
      simp only [loopEntries, List.length_cons, ih]

theorem loopRecs_getElem? (pid : String) :
    ∀ (chunks : List String) (idx ctr k : Nat),
      (loopRecs pid chunks idx ctr)[k]?
        = chunks[k]?.map (fun c =>
            { product_id := pid, chunk_id := pid ++ "_" ++ toString (idx + k),
              text_chunk := c, embedding_model := "mock",
              vector_id := mkUuid (ctr + k) }) := by
  intro chunks
  induction chunks with
  | nil => intro idx ctr k; simp [loopRecs]
  | cons c rest ih =>
      intro idx ctr k
      cases k with
      | zero => simp [loopRecs]
      | succ k' =>
          simp only [loopRecs, List.getElem?_cons_succ]
          rw [ih (idx + 1) (ctr + 1) k']
          have h1 : idx + 1 + k' = idx + (k' + 1) := by omega
          have h2 : ctr + 1 + k' = ctr + (k' + 1) := by omega
          rw [h1, h2]

theorem loopEntries_getElem? (pid title cat : String) (price : Option Int) :
    ∀ (chunks : List String) (idx ctr k : Nat),
      (loopEntries pid title cat price chunks idx ctr)[k]?
        = chunks[k]?.map (fun c =>
            (mkUuid (ctr + k),
              { vector := MockEmbeddingModel.embed c,
                metadata :=
                  { product_id := pid,
                    chunk_id := pid ++ "_" ++ toString (idx + k),
                    title := title, category := cat, price := price } })) := by
  intro chunks
  induction chunks with
  | nil => intro idx ctr k; simp [loopEntries]
  | cons c rest ih =>
      intro idx ctr k
      cases k with
      | zero => simp [loopEntries]
      | succ k' =>
          simp only [loopEntries, List.getElem?_cons_succ]
          rw [ih (idx + 1) (ctr + 1) k']
          have h1 : idx + 1 + k' = idx + (k' + 1) := by omega
          have h2 : ctr + 1 + k' = ctr + (k' + 1) := by omega
          rw [h1, h2]

theorem loopEntries_keys (pid title cat : String) (price : Option Int) :
    ∀ (chunks : List String) (idx ctr : Nat),
      (loopEntries pid title cat price chunks idx ctr).map Prod.fst
        = (List.range chunks.length).map (fun k => mkUuid (ctr + k)) := by
  intro chunks
  induction chunks with
  | nil => intro idx ctr; rfl
  | cons c rest ih =>
      intro idx ctr
      simp only [loopEntries, List.map_cons, List.length_cons]
      rw [ih (idx + 1) (ctr + 1), List.range_succ_eq_map, List.map_cons,
        List.map_map]
      refine congrArg₂ List.cons (by rw [Nat.add_zero]) ?_
      refine List.map_congr_left ?_
      intro a _
      show mkUuid (ctr + 1 + a) = mkUuid (ctr + (a + 1))
      have : ctr + 1 + a = ctr + (a + 1) := by omega
      rw [this]

theorem loopEntries_keys_nodup (pid title cat : String) (price : Option Int)
    (chunks : List String) (idx ctr : Nat) :
    ((loopEntries pid title cat price chunks idx ctr).map Prod.fst).Nodup := by
  rw [loopEntries_keys]
  refine List.Nodup.map ?_ (List.nodup_range _)
  intro a b hab
  have := mkUuid_inj hab
  omega

/-- One iteration of the ingestion loop with the title present: upsert the
embedded chunk under a fresh key, append the matching row, continue. -/
theorem ingestLoop_cons (p : Product) (pid title : String)
    (ht : p.title = some title) (chunk : String) (rest : List String)
    (idx : Nat) (st : PipelineState) :
    ingestLoop p pid (chunk :: rest) idx st =
      ingestLoop p pid rest (idx + 1)
        { st with
          uuidCtr := st.uuidCtr + 1,
          store := dictSet st.store (mkUuid st.uuidCtr)
            { vector := MockEmbeddingModel.embed chunk,
              metadata :=
                { product_id := pid, chunk_id := pid ++ "_" ++ toString idx,
                  title := title, category := p.category.getD "unknown",
                  price := p.price } },
          embeddings_table := st.embeddings_table ++
            [{ product_id := pid, chunk_id := pid ++ "_" ++ toString idx,
               text_chunk := chunk, embedding_model := "mock",
               vector_id := mkUuid st.uuidCtr }] } := by
  simp only [ingestLoop, ht]
  rfl

/-- Running the ingestion loop with the title present succeeds and appends
exactly the mirrored entries and rows, bumping the uuid counter once per
chunk, provided all existing store keys predate the counter. -/
theorem ingestLoop_append (p : Product) (pid title : String)
    (ht : p.title = some title) :
    ∀ (chunks : List String) (idx : Nat) (st : PipelineState),
      storeFresh st →
      ingestLoop p pid chunks idx st =
        ({ st with
           uuidCtr := st.uuidCtr + chunks.length,
           store := st.store ++ loopEntries pid title (p.category.getD "unknown")
             p.price chunks idx st.uuidCtr,
           embeddings_table := st.embeddings_table
             ++ loopRecs pid chunks idx st.uuidCtr },
         .ok ()) := by
  intro chunks
  induction chunks with
  | nil =>
      intro idx st hf
      simp [ingestLoop, loopEntries, loopRecs]
  | cons chunk rest ih =>
      intro idx st hf
      have hkey : ∀ e ∈ st.store, e.1 ≠ mkUuid st.uuidCtr := by
        intro e he heq
        obtain ⟨j, hj, hje⟩ := hf e he
        have hj2 : j = st.uuidCtr := mkUuid_inj (hje ▸ heq)
        omega
      rw [ingestLoop_cons p pid title ht, dictSet_eq_append _ _ _ hkey]
      have hf2 : storeFresh
          { st with
            uuidCtr := st.uuidCtr + 1,
            store := st.store ++
              [(mkUuid st.uuidCtr,
                { vector := MockEmbeddingModel.embed chunk,
                  metadata :=
                    { product_id := pid, chunk_id := pid ++ "_" ++ toString idx,
                      title := title, category := p.category.getD "unknown",
                      price := p.price } })],
            embeddings_table := st.embeddings_table ++
              [{ product_id := pid, chunk_id := pid ++ "_" ++ toString idx,
                 text_chunk := chunk, embedding_model := "mock",
                 vector_id := mkUuid st.uuidCtr }] } := by
        intro e he
        rcases List.mem_append.mp he with he | he
        · obtain ⟨j, hj, hje⟩ := hf e he
          exact ⟨j, Nat.lt_succ_of_lt hj, hje⟩
        · rcases List.mem_singleton.mp he with rfl
          exact ⟨st.uuidCtr, Nat.lt_succ_self _, rfl⟩
      rw [ih (idx + 1) _ hf2]
      rw [Prod.mk.injEq]
      refine ⟨?_, rfl⟩
      rw [PipelineState.mk.injEq]
      refine ⟨?_, ?_, rfl, ?_, rfl⟩
      · show st.uuidCtr + 1 + rest.length = st.uuidCtr + (rest.length + 1)
        omega
      · simp [loopEntries, List.append_assoc]
      · simp [loopRecs, List.append_assoc]

/-- The ingestion loop never touches the products table, on any path. -/
theorem ingestLoop_products (p : Product) (pid : String) :
    ∀ (chunks : List String) (idx : Nat) (st : PipelineState),
      ((ingestLoop p pid chunks idx st).1).products_table = st.products_table := by
  intro chunks
  induction chunks with
  | nil => intro idx st; rfl
  | cons c rest ih =>
      intro idx st
      cases ht : p.title with
      | none => simp [ingestLoop, ht]
      | some t =>
          rw [ingestLoop_cons p pid t ht, ih (idx + 1)]

/-- Full evaluation of a successful `ingest_product` call with a string
description, a present title, and a fresh-keyed store. -/
theorem ingest_product_ok_eq (st : PipelineState) (p : Product)
    (desc title : String) (chunks : List String)
    (hd : p.description = some (some desc)) (ht : p.title = some title)
    (hch : chunk_text desc 100 25 = .ok chunks) (hfresh : storeFresh st) :
    ingest_product st p =
      ({ uuidCtr := st.uuidCtr + 1 + chunks.length,
         store := st.store ++ loopEntries (resolvedId st p) title
           (p.category.getD "unknown") p.price chunks 0 (st.uuidCtr + 1),
         products_table := dictSet st.products_table (resolvedId st p) p,
         embeddings_table := st.embeddings_table
           ++ loopRecs (resolvedId st p) chunks 0 (st.uuidCtr + 1),
         output := st.output ++
           ["Ingested product: " ++ resolvedId st p ++ " with "
             ++ toString chunks.length ++ " chunks"] },
       .ok ()) := by
  have hf1 : storeFresh
      { st with
        uuidCtr := st.uuidCtr + 1,
        products_table := dictSet st.products_table (resolvedId st p) p } := by
    intro e he
    obtain ⟨j, hj, hje⟩ := hfresh e he
    exact ⟨j, Nat.lt_succ_of_lt hj, hje⟩
  have hloop := ingestLoop_append p (resolvedId st p) title ht chunks 0 _ hf1
  simp only [ingest_product, hd, hch, resolvedId] at hloop ⊢
  rw [hloop]

/-- Full evaluation of `ingest_product` when the description chunks to the
empty list: success, no store or embeddings writes, and a `0 chunks`
summary, regardless of the title. -/
theorem ingest_product_ok_nochunks (st : PipelineState) (p : Product)
    (desc : String) (hd : p.description = some (some desc))
    (hch : chunk_text desc 100 25 = .ok []) :
    ingest_product st p =
      ({ uuidCtr := st.uuidCtr + 1,
         store := st.store,
         products_table := dictSet st.products_table (resolvedId st p) p,
         embeddings_table := st.embeddings_table,
         output := st.output ++
           ["Ingested product: " ++ resolvedId st p ++ " with "
             ++ toString (0 : Nat) ++ " chunks"] },
       .ok ()) := by
  simp only [ingest_product, hd, hch, resolvedId]
  rfl

/-- A description splitting to the empty word list always chunks to the
empty list under the pipeline policy `max_words = 100`, `overlap = 25`. -/
theorem chunk_text_empty_words (desc : String) (hw : pySplit desc = []) :
    chunk_text desc 100 25 = .ok [] := by
  simp only [chunk_text, hw]
  rfl

/-- Any text chunks successfully under the pipeline policy
`max_words = 100`, `overlap = 25`. -/
theorem chunk_text_policy_ok (desc : String) :
    ∃ chunks, chunk_text desc 100 25 = .ok chunks := by
  rw [chunk_text_eq desc 100 25 (by norm_num) (by norm_num) (by norm_num)]
  exact ⟨_, rfl⟩

/-! ### Orchestrator claims -/

/-- C7 (amended): the resolved `product_id` equals the product's `id` field
whenever that field is present — including the empty string — and a fresh
identifier is drawn only when the field is absent; the product is recorded
in the products table under that key (last-write-wins). -/
theorem ingest_product_id_resolution (st : PipelineState) (p : Product) :
    ((ingest_product st p).1).products_table
      = dictSet st.products_table (resolvedId st p) p := by
  cases hd : p.description with
  | none => simp only [ingest_product, hd, resolvedId]
  | some od =>
    cases od with
    | none => simp only [ingest_product, hd, resolvedId]
    | some desc =>
        obtain ⟨chunks, hch⟩ := chunk_text_policy_ok desc
        simp only [ingest_product, hd, hch, resolvedId]
        split
        · rename_i st3 e heq
          have h1 := congrArg
            (fun q : PipelineState × Except PyErr Unit => q.1.products_table) heq
          dsimp only [] at h1
          rw [ingestLoop_products] at h1
          exact h1.symm
        · rename_i st3 u heq
          have h1 := congrArg
            (fun q : PipelineState × Except PyErr Unit => q.1.products_table) heq
          dsimp only [] at h1
          rw [ingestLoop_products] at h1
          exact h1.symm

/-- C7 (counterexample): a product whose `id` key is present but equal to
the empty string is stored under the key `""`; no fresh identifier is
generated for it. -/
theorem ingest_empty_id_used_verbatim :
    ((ingest_product initState
        { id := some "", title := some "t",
          description := some (some "d"), category := none,
          price := none }).1).products_table.map Prod.fst = [""] ∧
    ("" : String) ≠ mkUuid 0 := by
  refine ⟨rfl, by decide⟩

/-- C3 (amended): with an absent or null `description` the call fails (with
`KeyError`, respectively `AttributeError`), and nothing is written to the
vector store, the embeddings table, or the output — but the product has
already been recorded in the products table under the resolved id. -/
theorem ingest_missing_description (st : PipelineState) (p : Product)
    (h : p.description = none ∨ p.description = some none) :
    ((ingest_product st p).2 = .error .keyError ∨
      (ingest_product st p).2 = .error .attributeError) ∧
    (ingest_product st p).1.store = st.store ∧
    (ingest_product st p).1.embeddings_table = st.embeddings_table ∧
    (ingest_product st p).1.output = st.output ∧
    (ingest_product st p).1.products_table
      = dictSet st.products_table (resolvedId st p) p := by
  rcases h with h | h
  · simp [ingest_product, h, resolvedId]
  · simp [ingest_product, h, resolvedId]

/-- C3 (witness): the amended theorem at a concrete product with an absent
description. -/
theorem ingest_missing_description_witness :
    ((ingest_product initState
        { id := some "p", title := some "t", description := none,
          category := none, price := none }).2 = .error .keyError ∨
      (ingest_product initState
        { id := some "p", title := some "t", description := none,
          category := none, price := none }).2 = .error .attributeError) ∧
    (ingest_product initState
        { id := some "p", title := some "t", description := none,
          category := none, price := none }).1.store = initState.store ∧
    (ingest_product initState
        { id := some "p", title := some "t", description := none,
          category := none, price := none }).1.embeddings_table
      = initState.embeddings_table ∧
    (ingest_product initState
        { id := some "p", title := some "t", description := none,
          category := none, price := none }).1.output = initState.output ∧
    (ingest_product initState
        { id := some "p", title := some "t", description := none,
          category := none, price := none }).1.products_table
      = dictSet initState.products_table
          (resolvedId initState
            { id := some "p", title := some "t", description := none,
              category := none, price := none })
          { id := some "p", title := some "t", description := none,
            category := none, price := none } :=
  ingest_missing_description initState
    { id := some "p", title := some "t", description := none,
      category := none, price := none } (Or.inl rfl)

/-- C3 (counterexample): with an absent description the call fails, yet the
products table has changed: the product was stored before the check, so the
state is not left unchanged. -/
theorem ingest_missing_description_writes_product :
    (ingest_product initState
        { id := some "p", title := some "t", description := none,
          category := none, price := none }).2 = .error .keyError ∧
    (ingest_product initState
        { id := some "p", title := some "t", description := none,
          category := none, price := none }).1.products_table
      = [("p", { id := some "p", title := some "t", description := none,
                 category := none, price := none })] ∧
    (ingest_product initState
        { id := some "p", title := some "t", description := none,
          category := none, price := none }).1 ≠ initState := by
  refine ⟨rfl, rfl, by decide⟩

/-- C10: a present, non-null description consisting only of whitespace
(including the empty string) splits to no words, so ingestion succeeds with
zero chunks, appends no embedding records, creates no vector store entries,
and still stores the product in the products table under the resolved id. -/
theorem ingest_whitespace_description (st : PipelineState) (p : Product)
    (desc : String) (hd : p.description = some (some desc))
    (hw : pySplit desc = []) :
    (ingest_product st p).2 = .ok () ∧
    (ingest_product st p).1.store = st.store ∧
    (ingest_product st p).1.embeddings_table = st.embeddings_table ∧
    (ingest_product st p).1.products_table
      = dictSet st.products_table (resolvedId st p) p := by
  rw [ingest_product_ok_nochunks st p desc hd (chunk_text_empty_words desc hw)]
  exact ⟨rfl, rfl, rfl, rfl⟩

/-- C10 (witness): a whitespace-only description on a product with no title
key: ingestion still succeeds, writing only the products table. -/
theorem ingest_whitespace_description_witness :
    (ingest_product initState
        { id := some "pw", title := none, description := some (some " "),
          category := none, price := none }).2 = .ok () ∧
    (ingest_product initState
        { id := some "pw", title := none, description := some (some " "),
          category := none, price := none }).1.store = initState.store ∧
    (ingest_product initState
        { id := some "pw", title := none, description := some (some " "),
          category := none, price := none }).1.embeddings_table
      = initState.embeddings_table ∧
    (ingest_product initState
        { id := some "pw", title := none, description := some (some " "),
          category := none, price := none }).1.products_table
      = dictSet initState.products_table
          (resolvedId initState
            { id := some "pw", title := none, description := some (some " "),
              category := none, price := none })
          { id := some "pw", title := none, description := some (some " "),
            category := none, price := none } :=
  ingest_whitespace_description initState
    { id := some "pw", title := none, description := some (some " "),
      category := none, price := none } " " rfl (by decide)

/-- C6 (evaluation of the code at the failing input): a successful call
returns the unit value — `ingest_product` returns `None` in the source — and
only prints the summary line carrying the resolved id and the chunk count;
no `IngestionResult` value is returned. -/
theorem ingest_returns_unit_prints_summary :
    (ingest_product initState
        { id := some "p1", title := some "t",
          description := some (some "hello world"), category := none,
          price := none }).2 = .ok () ∧
    (ingest_product initState
        { id := some "p1", title := some "t",
          description := some (some "hello world"), category := none,
          price := none }).1.output
      = ["Ingested product: p1 with 1 chunks"] := by
  refine ⟨rfl, rfl⟩

/-- C5: after every successful `ingest_product` call on a fresh-keyed state,
the embedding records appended and the vector store entries created by that
call are equinumerous with the chunks of the description; position by
position they are linked 1:1 by the same `vector_id` (the new entry keys are
pairwise distinct), share the same `chunk_id`, and that `chunk_id` is
`"<product_id>_<idx>"` for the 0-based chunk index in generation order. -/
theorem ingest_linkage_invariant (st : PipelineState) (p : Product)
    (st' : PipelineState) (h : ingest_product st p = (st', .ok ()))
    (hfresh : storeFresh st) :
    ∃ desc chunks newRecs newEntries,
      p.description = some (some desc) ∧
      chunk_text desc 100 25 = .ok chunks ∧
      st'.embeddings_table = st.embeddings_table ++ newRecs ∧
      st'.store = st.store ++ newEntries ∧
      newRecs.length = chunks.length ∧
      newEntries.length = chunks.length ∧
      (newEntries.map Prod.fst).Nodup ∧
      ∀ k, k < chunks.length →
        ∃ r e, newRecs[k]? = some r ∧ newEntries[k]? = some e ∧
          r.vector_id = e.1 ∧
          r.chunk_id = e.2.metadata.chunk_id ∧
          r.chunk_id = resolvedId st p ++ "_" ++ toString k := by
  cases hd : p.description with
  | none =>
      have h2 := congrArg Prod.snd h
      simp [ingest_product, hd] at h2
  | some od =>
    cases od with
    | none =>
        have h2 := congrArg Prod.snd h
        simp [ingest_product, hd] at h2
    | some desc =>
        obtain ⟨chunks, hch⟩ := chunk_text_policy_ok desc
        cases ht : p.title with
        | some title =>
            rw [ingest_product_ok_eq st p desc title chunks hd ht hch hfresh] at h
            injection h with h1 h2
            subst h1
            refine ⟨desc, chunks,
              loopRecs (resolvedId st p) chunks 0 (st.uuidCtr + 1),
              loopEntries (resolvedId st p) title (p.category.getD "unknown")
                p.price chunks 0 (st.uuidCtr + 1),
              rfl, hch, rfl, rfl, loopRecs_length _ _ _ _,
              loopEntries_length _ _ _ _ _ _ _,
              loopEntries_keys_nodup _ _ _ _ _ _ _, ?_⟩
            intro k hk
            have hck : chunks[k]? = some chunks[k] := List.getElem?_eq_getElem hk
            refine ⟨{ product_id := resolvedId st p,
                      chunk_id := resolvedId st p ++ "_" ++ toString (0 + k),
                      text_chunk := chunks[k], embedding_model := "mock",
                      vector_id := mkUuid (st.uuidCtr + 1 + k) },
                    (mkUuid (st.uuidCtr + 1 + k),
                      { vector := MockEmbeddingModel.embed chunks[k],
                        metadata :=
                          { product_id := resolvedId st p,
                            chunk_id := resolvedId st p ++ "_" ++ toString (0 + k),
                            title := title,
                            category := p.category.getD "unknown",
                            price := p.price } }),
                    ?_, ?_, rfl, rfl, ?_⟩
            · rw [loopRecs_getElem?, hck]
              rfl
            · rw [loopEntries_getElem?, hck]
              rfl
            · show resolvedId st p ++ "_" ++ toString (0 + k)
                = resolvedId st p ++ "_" ++ toString k
              rw [Nat.zero_add]
        | none =>
            cases hcs : chunks with
            | nil =>
                rw [hcs] at hch
                rw [ingest_product_ok_nochunks st p desc hd hch] at h
                injection h with h1 h2
                subst h1
                refine ⟨desc, [], [], [], rfl, hch, by simp, by simp, rfl, rfl,
                  List.nodup_nil, ?_⟩
                intro k hk
                exact absurd hk (by simp)
            | cons c rest =>
                rw [hcs] at hch
                simp [ingest_product, hd, hch, ingestLoop, ht] at h

/-- Sample product used to witness the linkage invariant. -/
def sampleLinkageProduct : Product :=
  { id := some "p5", title := some "T", description := some (some "a b"),
    category := some "cat", price := some 10 }

/-- C5 (witness): the linkage invariant instantiated on the empty pipeline
and a concrete product. -/
theorem ingest_linkage_invariant_witness :
    ∃ desc chunks newRecs newEntries,
      sampleLinkageProduct.description = some (some desc) ∧
      chunk_text desc 100 25 = .ok chunks ∧
      ((ingest_product initState sampleLinkageProduct).1).embeddings_table
        = initState.embeddings_table ++ newRecs ∧
      ((ingest_product initState sampleLinkageProduct).1).store
        = initState.store ++ newEntries ∧
      newRecs.length = chunks.length ∧
      newEntries.length = chunks.length ∧
      (newEntries.map Prod.fst).Nodup ∧
      ∀ k, k < chunks.length →
        ∃ r e, newRecs[k]? = some r ∧ newEntries[k]? = some e ∧
          r.vector_id = e.1 ∧
          r.chunk_id = e.2.metadata.chunk_id ∧
          r.chunk_id = resolvedId initState sampleLinkageProduct
              ++ "_" ++ toString k :=
  ingest_linkage_invariant initState sampleLinkageProduct
    (ingest_product initState sampleLinkageProduct).1 rfl
    (fun e he => absurd he (List.not_mem_nil e))
